import Mathlib

/-!
# A verification model of the `lead-oxide` rate-gated batch-fetch core

This file gives a shallow embedding of `src/fetcher.rs` and
`src/constants.rs`: the `Fetcher::try_get` fulfilment algorithm, the shared
`Arc<Mutex<Instant>>` timing gate, `Fetcher::drain`, and `Session::default`.

Modelling conventions:
* time instants are `Int`s (an abstract monotonic clock value, in milliseconds).
* The remote fetch boundary (`Fetcher::fetch`, a network call in the source)
  is an oracle `Nat → Except ApiError (List α)` giving the result of the
  `i`-th remote invocation process-wide; proxy records are opaque to the
  core (it only counts and moves them), so they are an arbitrary type `α`.
* Each remote invocation is instantaneous; the clock advances through
  `thread::sleep` (modelled explicitly) and through environment delays
  between calls.
* The growth loops (`while self.proxies.len() < amount`) are modelled with
  explicit fuel: a `none` result means the loop did not finish within the
  given number of iterations, for any fuel.
* The `Mutex` serializes the entire rate-limited growth phase (the guard is
  held across the whole loop), so any thread interleaving of `try_get`
  calls sharing a `Session` executes the critical sections in *some*
  sequential order; `runJobs` quantifies over all such serialized orders.
-/

universe u

/-- Modelled from the spec: `errors.rs` is not under `src/`; per spec §7
exactly one opaque error kind (`FetchError`/`ApiError`) crosses the core
boundary, produced solely by the remote fetch collaborator. -/
structure ApiError where
  code : Nat
deriving Repr, DecidableEq

/-- Modelled from the spec: `opts.rs` is not under `src/`; per spec §3 the
only part of the caller configuration the core inspects is the tier
(`is_premium`, i.e. an API key is present).  The filter options and the
per-call request size only shape the remote boundary's responses, which the
oracle supplies directly. -/
structure Opts where
  premium : Bool
deriving Repr, DecidableEq

/-- `constants::DELAY` (`constants.rs` line 8), the minimum interval between
keyless requests, in milliseconds (non-test build value; the test build uses
100). -/
def DELAY : Int := 1100

/-- The shared gate: the `Arc<Mutex<Instant>>` behind `Fetcher.last_fetched`.
`poisoned` records whether a previous holder of the mutex panicked while
holding the guard; `std::sync::Mutex` keeps the flag set once poisoned. -/
structure Gate where
  lastFetched : Int
  poisoned : Bool
deriving Repr, DecidableEq

/-- `Fetcher` (fetcher.rs lines 15–20): the local buffer of already-fetched
records (tail = most recently fetched) and the caller configuration.  The
gate is passed separately where state threading needs it. -/
structure Fetcher (α : Type u) where
  proxies : List α
  opts : Opts
deriving Repr, DecidableEq

/-- `Fetcher::drain` (fetcher.rs lines 130–132): return the whole remaining
buffer; no remote interaction. -/
def Fetcher.drain {α : Type u} (f : Fetcher α) : List α :=
  f.proxies

/-- `Session` (fetcher.rs lines 137–140): owns the gate shared by all
fetchers derived from it. -/
structure Session where
  gate : Gate
deriving Repr, DecidableEq

/-- `Session::default` (fetcher.rs lines 156–163): the stored instant starts
exactly `DELAY` in the past ("Start far enough back to avoid delay"), and a
fresh mutex is not poisoned. -/
def Session.default (now : Int) : Session :=
  ⟨⟨now - DELAY, false⟩⟩

/-- `Session::fetcher_with_opts` (fetcher.rs lines 151–153): a fresh fetcher
with an empty buffer. -/
def Session.fetcherWithOpts {α : Type u} (_s : Session) (opts : Opts) : Fetcher α :=
  ⟨[], opts⟩

/-- `Instant::now().duration_since(earlier)`: the elapsed duration, saturating
at zero when `earlier` is not in the past. -/
def durationSince (now earlier : Int) : Int :=
  if now - earlier ≤ 0 then 0 else now - earlier

/-- The sleep performed by one iteration of the rate-limited loop
(fetcher.rs lines 61–64): if less than `DELAY` elapsed since `*last_fetched`,
sleep for the remainder; otherwise do not sleep. -/
def sleepTime (last now : Int) : Int :=
  if durationSince now last < DELAY then DELAY - durationSince now last else 0

/-- The loop-local state of a rate-limited growth phase: the fetcher's
buffer, the guarded `*last_fetched` value, and the current clock. -/
structure RLState (α : Type u) where
  buf : List α
  last : Int
  now : Int
deriving Repr, DecidableEq

/-- What one growth loop reports back: the propagated result, the final
loop state, the next oracle index, the remote invocations it performed
(time, whether the invocation succeeded), and every record the boundary
handed over, in arrival order. -/
structure LoopOut (α : Type u) where
  res : Except ApiError Unit
  s : RLState α
  k : Nat
  events : List (Int × Bool)
  fetched : List α
deriving Repr

/-- The rate-limited growth loop (fetcher.rs lines 59–71), with fuel.  Each
iteration: sleep out the remainder of the delay window, invoke the remote
boundary at the resulting instant, and on success append the records and
advance `*last_fetched` to the invocation time.  On a `FetchError` the `?`
at line 66 returns before the `*last_fetched = Instant::now()` at line 70,
so the gate timestamp is NOT advanced by a failed invocation. -/
def rlLoop {α : Type u} (oracle : Nat → Except ApiError (List α)) (amount : Nat) :
    Nat → Nat → RLState α → Option (LoopOut α)
  | 0, _, _ => none
  | fuel + 1, k, s =>
    if amount ≤ s.buf.length then some ⟨.ok (), s, k, [], []⟩
    else
      let t := s.now + sleepTime s.last s.now
      match oracle k with
      | .error e => some ⟨.error e, ⟨s.buf, s.last, t⟩, k + 1, [(t, false)], []⟩
      | .ok ps =>
        match rlLoop oracle amount fuel (k + 1) ⟨s.buf ++ ps, t, t⟩ with
        | none => none
        | some out =>
          some { out with events := (t, true) :: out.events, fetched := ps ++ out.fetched }

/-- What the premium growth loop reports back (it never sleeps and never
touches the gate, so only the buffer and the oracle index evolve). -/
structure PLoopOut (α : Type u) where
  res : Except ApiError Unit
  buf : List α
  k : Nat
  events : List (Int × Bool)
  fetched : List α
deriving Repr

/-- The premium growth loop (fetcher.rs lines 42–45): back-to-back remote
invocations with no delay and no gate interaction. -/
def premiumLoop {α : Type u} (oracle : Nat → Except ApiError (List α)) (amount : Nat)
    (now : Int) : Nat → Nat → List α → Option (PLoopOut α)
  | 0, _, _ => none
  | fuel + 1, k, buf =>
    if amount ≤ buf.length then some ⟨.ok (), buf, k, [], []⟩
    else
      match oracle k with
      | .error e => some ⟨.error e, buf, k + 1, [(now, false)], []⟩
      | .ok ps =>
        match premiumLoop oracle amount now fuel (k + 1) (buf ++ ps) with
        | none => none
        | some out =>
          some { out with events := (now, true) :: out.events, fetched := ps ++ out.fetched }

/-- The observable outcome of one `try_get` call: the returned result, the
fetcher's buffer afterwards, the gate and clock afterwards, the next oracle
index, the remote invocations performed, the records the boundary handed
over, and whether the call acquired the shared gate. -/
structure Outcome (α : Type u) where
  result : Except ApiError (List α)
  buf : List α
  gate : Gate
  now : Int
  k : Nat
  events : List (Int × Bool)
  fetched : List α
  locked : Bool
deriving Repr

/-- `Fetcher::try_get` (fetcher.rs lines 31–76).
* Fast path (lines 32–34): if the buffer suffices, `split_off` the last
  `amount` records; no lock, no remote call, no sleep.
* Premium path (lines 39–45): grow the buffer with back-to-back remote
  invocations; the gate is never read or written.
* Rate-limited path (lines 46–72): lock the gate — if the mutex is
  poisoned, reset the stored instant to now (lines 51–56) — then run the
  delayed growth loop; the guard writes back on every exit path, and
  `std::sync::Mutex` keeps the poison flag.
* Lines 34/74: `split_off(len - amount)` returns the last `amount`
  records in stored order and keeps the prefix. -/
def tryGet {α : Type u} (oracle : Nat → Except ApiError (List α)) (fuel amount : Nat)
    (f : Fetcher α) (g : Gate) (now : Int) (k : Nat) : Option (Outcome α) :=
  if amount ≤ f.proxies.length then
    some ⟨.ok (f.proxies.drop (f.proxies.length - amount)),
          f.proxies.take (f.proxies.length - amount), g, now, k, [], [], false⟩
  else if f.opts.premium then
    match premiumLoop oracle amount now fuel k f.proxies with
    | none => none
    | some out =>
      match out.res with
      | .error e => some ⟨.error e, out.buf, g, now, out.k, out.events, out.fetched, false⟩
      | .ok _ =>
        some ⟨.ok (out.buf.drop (out.buf.length - amount)),
              out.buf.take (out.buf.length - amount), g, now, out.k,
              out.events, out.fetched, false⟩
  else
    let last0 : Int := if g.poisoned then now else g.lastFetched
    match rlLoop oracle amount fuel k ⟨f.proxies, last0, now⟩ with
    | none => none
    | some out =>
      match out.res with
      | .error e =>
        some ⟨.error e, out.s.buf, ⟨out.s.last, g.poisoned⟩, out.s.now, out.k,
              out.events, out.fetched, true⟩
      | .ok _ =>
        some ⟨.ok (out.s.buf.drop (out.s.buf.length - amount)),
              out.s.buf.take (out.s.buf.length - amount), ⟨out.s.last, g.poisoned⟩,
              out.s.now, out.k, out.events, out.fetched, true⟩

/-- The records a `try_get` result hands to the caller (none on the error
path). -/
def resultList {α : Type u} : Except ApiError (List α) → List α
  | .ok ps => ps
  | .error _ => []

/-- One serialized rate-limited `try_get` critical section attributable to a
session: the calling fetcher's buffer at entry, the requested amount, and
the environment time that passes before the call acquires the gate. -/
structure Job (α : Type u) where
  buf : List α
  amount : Nat
  delay : Nat
deriving Repr, DecidableEq

/-- The state after a sequence of serialized calls sharing one gate. -/
structure RunResult (α : Type u) where
  gate : Gate
  now : Int
  k : Nat
  events : List (Int × Bool)
deriving Repr

/-- Run a serialized sequence of rate-limited `try_get` critical sections
sharing one gate.  The mutex holds the guard across each entire growth
phase, so every thread interleaving of rate-limited calls sharing a
`Session` executes as some such sequence; the events of all calls are
concatenated in execution order. -/
def runJobs {α : Type u} (oracle : Nat → Except ApiError (List α)) (fuel : Nat) :
    List (Job α) → Gate → Int → Nat → Option (RunResult α)
  | [], g, now, k => some ⟨g, now, k, []⟩
  | j :: js, g, now, k =>
    match tryGet oracle fuel j.amount ⟨j.buf, ⟨false⟩⟩ g (now + (j.delay : Int)) k with
    | none => none
    | some o =>
      match runJobs oracle fuel js o.gate o.now o.k with
      | none => none
      | some r => some { r with events := o.events ++ r.events }

/-- Adjacent-pair separation of a process-wide event trace: every pair of
consecutive remote invocations is at least `DELAY` apart. -/
def sepOK : List (Int × Bool) → Bool
  | [] => true
  | [_] => true
  | (t1, _) :: (t2, b2) :: rest => decide (t1 + DELAY ≤ t2) && sepOK ((t2, b2) :: rest)

/-- Weakened separation: every pair of consecutive remote invocations whose
earlier member succeeded is at least `DELAY` apart (a failed invocation does
not advance the gate, so it constrains nothing about its successor). -/
def sepAfterSuccess : List (Int × Bool) → Bool
  | [] => true
  | [_] => true
  | (t1, b1) :: (t2, b2) :: rest =>
      (!b1 || decide (t1 + DELAY ≤ t2)) && sepAfterSuccess ((t2, b2) :: rest)

/-- The gate-chain discipline of an event trace relative to a gate value
`last`: each invocation happens no earlier than `last + DELAY`, where `last`
advances to the invocation time exactly when the invocation succeeded. -/
def chainOK (last : Int) : List (Int × Bool) → Bool
  | [] => true
  | (t, b) :: rest => decide (last + DELAY ≤ t) && chainOK (if b then t else last) rest

/-- The gate value after a trace: the time of its last successful
invocation, or the initial value if none succeeded. -/
def foldLast (last : Int) : List (Int × Bool) → Int
  | [] => last
  | (t, b) :: rest => foldLast (if b then t else last) rest

/-- `sepOK` applied under `Option`, for stating trace properties of a
`runJobs` result. -/
def runSep {α : Type u} : Option (RunResult α) → Option Bool
  | none => none
  | some r => some (sepOK r.events)

/-- Everything a `try_get` outcome exposes except the gate, for stating
gate-independence of the premium path. -/
def Outcome.core {α : Type u} (o : Outcome α) :
    Except ApiError (List α) × List α × Int × Nat × List (Int × Bool) × List α × Bool :=
  (o.result, o.buf, o.now, o.k, o.events, o.fetched, o.locked)

/-- The state threaded through a sequence of sequential `try_get` calls on a
single fetcher, accumulating the returned batches and every record the
boundary handed over. -/
structure SeqResult (α : Type u) where
  fetcher : Fetcher α
  gate : Gate
  now : Int
  k : Nat
  rets : List (List α)
  fetched : List α
deriving Repr

/-- Run a finite sequence of sequential successful `try_get` calls on one
fetcher (a call that runs out of fuel or returns an error yields `none`,
matching the claim's restriction to successful sequences). -/
def runCalls {α : Type u} (oracle : Nat → Except ApiError (List α)) (fuel : Nat) :
    List Nat → SeqResult α → Option (SeqResult α)
  | [], st => some st
  | a :: rest, st =>
    match tryGet oracle fuel a st.fetcher st.gate st.now st.k with
    | none => none
    | some o =>
      match o.result with
      | .error _ => none
      | .ok ps =>
        runCalls oracle fuel rest
          ⟨⟨o.buf, st.fetcher.opts⟩, o.gate, o.now, o.k,
           st.rets ++ [ps], st.fetched ++ o.fetched⟩

/-- A boundary for concrete runs: the first invocation fails, every later
one returns a single record. -/
def failThenOk : Nat → Except ApiError (List Nat) :=
  fun k => if k = 0 then .error ⟨0⟩ else .ok [7]

/-- A boundary whose every invocation succeeds with zero records (allowed by
the boundary contract: "up to `request_size` records, possibly fewer"). -/
def alwaysEmpty : Nat → Except ApiError (List Nat) :=
  fun _ => .ok []

/-- A boundary whose every invocation succeeds with one record. -/
def alwaysOk3 : Nat → Except ApiError (List Nat) :=
  fun _ => .ok [3]

/-- The concrete outcome of `tryGet failThenOk 3 2 ⟨[1], ⟨false⟩⟩ ⟨-1100, false⟩ 0 0`,
used to state witnesses on the error path. -/
def oC2 : Outcome Nat :=
  ⟨.error ⟨0⟩, [1], ⟨-1100, false⟩, 0, 1, [(0, false)], [], true⟩

theorem rlLoop_sound {α : Type u} (oracle : Nat → Except ApiError (List α)) (amount : Nat) :
    ∀ (fuel k : Nat) (s : RLState α) (out : LoopOut α),
      rlLoop oracle amount fuel k s = some out →
      out.s.buf = s.buf ++ out.fetched ∧
      (out.res = .ok () → amount ≤ out.s.buf.length) ∧
      (∀ e, out.res = .error e → oracle (out.k - 1) = Except.error e) ∧
      k ≤ out.k := by
  intro fuel
  induction fuel with
  | zero => intro k s out h; simp [rlLoop] at h
  | succ n ih =>
    intro k s out h
    simp only [rlLoop] at h
    split at h
    · cases h
      refine ⟨by simp, fun _ => by assumption, fun e he => by simp at he, le_refl _⟩
    · split at h
      · rename_i x e heq
        cases h
        refine ⟨by simp, fun hok => by simp at hok, fun e2 he => ?_, by simp⟩
        simp at he
        subst he
        simpa using heq
      · rename_i ps hps
        cases hrec : rlLoop oracle amount n (k + 1)
            ⟨s.buf ++ ps, s.now + sleepTime s.last s.now, s.now + sleepTime s.last s.now⟩ with
        | none => rw [hrec] at h; cases h
        | some out1 =>
          rw [hrec] at h
          cases h
          obtain ⟨h1, h2, h3, h4⟩ := ih (k + 1) _ out1 hrec
          refine ⟨by simp [h1], fun hok => h2 hok, fun e he => h3 e he, show k ≤ out1.k by omega⟩

theorem sleep_bounds (last now : Int) (h : last ≤ now) :
    last + DELAY ≤ now + sleepTime last now ∧ 0 ≤ sleepTime last now := by
  have hd : durationSince now last = now - last := by
    simp only [durationSince]
    split <;> omega
  simp only [sleepTime, hd, DELAY]
  split <;> omega

theorem rlLoop_chain {α : Type u} (oracle : Nat → Except ApiError (List α)) (amount : Nat) :
    ∀ (fuel k : Nat) (s : RLState α) (out : LoopOut α),
      s.last ≤ s.now →
      rlLoop oracle amount fuel k s = some out →
      chainOK s.last out.events = true ∧
      foldLast s.last out.events = out.s.last ∧
      s.last ≤ out.s.last ∧ out.s.last ≤ out.s.now ∧ s.now ≤ out.s.now := by
  intro fuel
  induction fuel with
  | zero => intro k s out _ h; simp [rlLoop] at h
  | succ n ih =>
    intro k s out hls h
    simp only [rlLoop] at h
    split at h
    · cases h; exact ⟨rfl, rfl, le_refl _, hls, le_refl _⟩
    · obtain ⟨hb, hsl⟩ := sleep_bounds s.last s.now hls
      split at h
      · rename_i x e heq
        cases h
        refine ⟨?_, by simp [foldLast], le_refl _,
          by show s.last ≤ s.now + sleepTime s.last s.now; omega,
          by show s.now ≤ s.now + sleepTime s.last s.now; omega⟩
        simp [chainOK]
        omega
      · rename_i ps hps
        cases hrec : rlLoop oracle amount n (k + 1)
            ⟨s.buf ++ ps, s.now + sleepTime s.last s.now, s.now + sleepTime s.last s.now⟩ with
        | none => rw [hrec] at h; cases h
        | some out1 =>
          rw [hrec] at h
          cases h
          obtain ⟨h1, h2, h3, h4, h5⟩ := ih (k + 1) _ out1 (le_refl _) hrec
          dsimp only at h1 h2 h3 h4 h5
          refine ⟨?_, ?_, ?_, h4, ?_⟩
          · simp [chainOK, h1]
            omega
          · simpa [foldLast] using h2
          · show s.last ≤ out1.s.last
            omega
          · show s.now ≤ out1.s.now
            omega

theorem rlLoop_total {α : Type u} (oracle : Nat → Except ApiError (List α)) (amount : Nat)
    (hor : ∀ i ps, oracle i = Except.ok ps → ps ≠ []) :
    ∀ (fuel k : Nat) (s : RLState α), amount - s.buf.length < fuel →
      rlLoop oracle amount fuel k s ≠ none := by
  intro fuel
  induction fuel with
  | zero => intro k s hf; omega
  | succ n ih =>
    intro k s hf
    simp only [rlLoop]
    split
    · simp
    · rename_i hlen
      cases heq : oracle k with
      | error e => simp
      | ok ps =>
        have hps : ps ≠ [] := hor k ps heq
        have hlen2 : 1 ≤ ps.length := by
          cases ps with
          | nil => exact absurd rfl hps
          | cons a l => simp
        have := ih (k + 1)
          ⟨s.buf ++ ps, s.now + sleepTime s.last s.now, s.now + sleepTime s.last s.now⟩
          (by simp; omega)
        cases hrec : rlLoop oracle amount n (k + 1)
            ⟨s.buf ++ ps, s.now + sleepTime s.last s.now, s.now + sleepTime s.last s.now⟩ with
        | none => exact absurd hrec this
        | some out1 => simp [hrec]

theorem rlLoop_empty_diverges {α : Type u} (oracle : Nat → Except ApiError (List α))
    (amount : Nat) (hor : ∀ i, oracle i = Except.ok ([] : List α)) :
    ∀ (fuel k : Nat) (s : RLState α), s.buf.length < amount →
      rlLoop oracle amount fuel k s = none := by
  intro fuel
  induction fuel with
  | zero => intro k s hlen; simp [rlLoop]
  | succ n ih =>
    intro k s hlen
    simp only [rlLoop]
    rw [if_neg (by omega), hor k]
    have := ih (k + 1)
      ⟨s.buf ++ [], s.now + sleepTime s.last s.now, s.now + sleepTime s.last s.now⟩
      (by simpa using hlen)
    simp only [this]

theorem premiumLoop_sound {α : Type u} (oracle : Nat → Except ApiError (List α))
    (amount : Nat) (now : Int) :
    ∀ (fuel k : Nat) (buf : List α) (out : PLoopOut α),
      premiumLoop oracle amount now fuel k buf = some out →
      out.buf = buf ++ out.fetched ∧
      (out.res = .ok () → amount ≤ out.buf.length) ∧
      (∀ e, out.res = .error e → oracle (out.k - 1) = Except.error e) ∧
      (∀ ev, ev ∈ out.events → ev.1 = now) := by
  intro fuel
  induction fuel with
  | zero => intro k buf out h; simp [premiumLoop] at h
  | succ n ih =>
    intro k buf out h
    simp only [premiumLoop] at h
    split at h
    · cases h
      refine ⟨by simp, fun _ => by assumption, fun e he => by simp at he, fun ev hev => ?_⟩
      simp at hev
    · split at h
      · rename_i x e heq
        cases h
        refine ⟨by simp, fun hok => by simp at hok, fun e2 he => ?_, fun ev hev => ?_⟩
        · simp at he
          subst he
          simpa using heq
        · simp at hev
          simp [hev]
      · rename_i ps hps
        cases hrec : premiumLoop oracle amount now n (k + 1) (buf ++ ps) with
        | none => rw [hrec] at h; cases h
        | some out1 =>
          rw [hrec] at h
          cases h
          obtain ⟨h1, h2, h3, h4⟩ := ih (k + 1) _ out1 hrec
          refine ⟨by simp [h1], fun hok => h2 hok, fun e he => h3 e he, fun ev hev => ?_⟩
          simp at hev
          rcases hev with hev | hev
          · simp [hev]
          · exact h4 ev hev

theorem premiumLoop_total {α : Type u} (oracle : Nat → Except ApiError (List α)) (amount : Nat)
    (now : Int) (hor : ∀ i ps, oracle i = Except.ok ps → ps ≠ []) :
    ∀ (fuel k : Nat) (buf : List α), amount - buf.length < fuel →
      premiumLoop oracle amount now fuel k buf ≠ none := by
  intro fuel
  induction fuel with
  | zero => intro k buf hf; omega
  | succ n ih =>
    intro k buf hf
    simp only [premiumLoop]
    split
    · simp
    · rename_i hlen
      cases heq : oracle k with
      | error e => simp
      | ok ps =>
        have hps : ps ≠ [] := hor k ps heq
        have hlen2 : 1 ≤ ps.length := by
          cases ps with
          | nil => exact absurd rfl hps
          | cons a l => simp
        have := ih (k + 1) (buf ++ ps) (by simp; omega)
        cases hrec : premiumLoop oracle amount now n (k + 1) (buf ++ ps) with
        | none => exact absurd hrec this
        | some out1 => simp [hrec]

theorem tryGet_shape {α : Type u} (oracle : Nat → Except ApiError (List α))
    (fuel amount : Nat) (f : Fetcher α) (g : Gate) (now : Int) (k : Nat) (o : Outcome α)
    (h : tryGet oracle fuel amount f g now k = some o) :
    o.buf ++ resultList o.result = f.proxies ++ o.fetched ∧
    (∀ ps, o.result = .ok ps →
       ps = (f.proxies ++ o.fetched).drop ((f.proxies ++ o.fetched).length - amount) ∧
       o.buf = (f.proxies ++ o.fetched).take ((f.proxies ++ o.fetched).length - amount) ∧
       amount ≤ (f.proxies ++ o.fetched).length) ∧
    (∀ e, o.result = .error e →
       o.buf = f.proxies ++ o.fetched ∧ oracle (o.k - 1) = Except.error e) := by
  simp only [tryGet] at h
  split at h
  · rename_i hlen
    cases h
    refine ⟨by simp [resultList, List.take_append_drop], fun ps hps => ?_, fun e he => by simp at he⟩
    simp only [resultList] at hps
    simp at hps
    simp [← hps, hlen]
  · rename_i hlen
    split at h
    · -- premium path
      cases hpl : premiumLoop oracle amount now fuel k f.proxies with
      | none => rw [hpl] at h; cases h
      | some out =>
        rw [hpl] at h
        dsimp only at h
        obtain ⟨h1, h2, h3, h4⟩ := premiumLoop_sound oracle amount now fuel k f.proxies out hpl
        cases hres : out.res with
        | error e =>
          rw [hres] at h
          dsimp only at h
          cases h
          refine ⟨by simp [resultList, h1], fun ps hps => by simp at hps, fun e2 he => ?_⟩
          simp at he
          subst he
          exact ⟨h1, h3 _ hres⟩
        | ok u =>
          have hbuf : amount ≤ out.buf.length := h2 (by cases u; exact hres)
          rw [hres] at h
          dsimp only at h
          cases h
          constructor
          · simp [resultList, ← h1, List.take_append_drop]
          · refine ⟨fun ps hps => ?_, fun e he => by simp at he⟩
            simp only [resultList] at hps
            simp at hps
            rw [← h1, ← hps]
            exact ⟨rfl, rfl, by omega⟩
    · -- rate-limited path
      cases hrl : rlLoop oracle amount fuel k
          ⟨f.proxies, if g.poisoned then now else g.lastFetched, now⟩ with
      | none => rw [hrl] at h; cases h
      | some out =>
        rw [hrl] at h
        dsimp only at h
        obtain ⟨h1, h2, h3, h4⟩ := rlLoop_sound oracle amount fuel k _ out hrl
        dsimp only at h1 h2 h3
        cases hres : out.res with
        | error e =>
          rw [hres] at h
          dsimp only at h
          cases h
          refine ⟨by simp [resultList, h1], fun ps hps => by simp at hps, fun e2 he => ?_⟩
          simp at he
          subst he
          exact ⟨h1, h3 _ hres⟩
        | ok u =>
          have hbuf : amount ≤ out.s.buf.length := h2 (by cases u; exact hres)
          rw [hres] at h
          dsimp only at h
          cases h
          constructor
          · simp [resultList, ← h1, List.take_append_drop]
          · refine ⟨fun ps hps => ?_, fun e he => by simp at he⟩
            simp only [resultList] at hps
            simp at hps
            rw [← h1, ← hps]
            exact ⟨rfl, rfl, by omega⟩

theorem chainOK_mono : ∀ (evs : List (Int × Bool)) (l1 l2 : Int), l1 ≤ l2 →
    chainOK l2 evs = true → chainOK l1 evs = true := by
  intro evs
  induction evs with
  | nil => intro l1 l2 _ _; rfl
  | cons hd tl ih =>
    intro l1 l2 hle h
    obtain ⟨t, b⟩ := hd
    simp only [chainOK, Bool.and_eq_true, decide_eq_true_eq] at h ⊢
    obtain ⟨h1, h2⟩ := h
    refine ⟨by omega, ?_⟩
    cases b
    · exact ih l1 l2 hle (by simpa using h2)
    · simpa using h2

theorem foldLast_mono : ∀ (evs : List (Int × Bool)) (l1 l2 : Int), l1 ≤ l2 →
    foldLast l1 evs ≤ foldLast l2 evs := by
  intro evs
  induction evs with
  | nil => intro l1 l2 hle; simpa [foldLast] using hle
  | cons hd tl ih =>
    intro l1 l2 hle
    obtain ⟨t, b⟩ := hd
    cases b
    · simpa [foldLast] using ih l1 l2 hle
    · simp [foldLast]

theorem chainOK_append : ∀ (xs ys : List (Int × Bool)) (l : Int),
    chainOK l (xs ++ ys) = (chainOK l xs && chainOK (foldLast l xs) ys) := by
  intro xs
  induction xs with
  | nil => intro ys l; simp [chainOK, foldLast]
  | cons hd tl ih =>
    intro ys l
    obtain ⟨t, b⟩ := hd
    simp [chainOK, foldLast, ih, Bool.and_assoc]

theorem foldLast_append : ∀ (xs ys : List (Int × Bool)) (l : Int),
    foldLast l (xs ++ ys) = foldLast (foldLast l xs) ys := by
  intro xs
  induction xs with
  | nil => intro ys l; simp [foldLast]
  | cons hd tl ih =>
    intro ys l
    obtain ⟨t, b⟩ := hd
    simp [foldLast, ih]

theorem chainOK_sepAfterSuccess : ∀ (evs : List (Int × Bool)) (l : Int),
    chainOK l evs = true → sepAfterSuccess evs = true := by
  intro evs
  induction evs with
  | nil => intro l _; rfl
  | cons hd tl ih =>
    intro l h
    obtain ⟨t, b⟩ := hd
    simp only [chainOK, Bool.and_eq_true, decide_eq_true_eq] at h
    obtain ⟨h1, h2⟩ := h
    cases tl with
    | nil => rfl
    | cons hd2 tl2 =>
      obtain ⟨t2, b2⟩ := hd2
      have hs := ih _ h2
      cases b
      · simpa [sepAfterSuccess] using hs
      · simp only [chainOK, Bool.and_eq_true, decide_eq_true_eq, if_true] at h2
        simp [sepAfterSuccess, hs]
        omega

theorem tryGet_chain {α : Type u} (oracle : Nat → Except ApiError (List α))
    (fuel amount : Nat) (f : Fetcher α) (g : Gate) (now : Int) (k : Nat) (o : Outcome α)
    (hnow : g.lastFetched ≤ now) (hprem : f.opts.premium = false)
    (h : tryGet oracle fuel amount f g now k = some o) :
    chainOK g.lastFetched o.events = true ∧
    foldLast g.lastFetched o.events ≤ o.gate.lastFetched ∧
    g.lastFetched ≤ o.gate.lastFetched ∧ o.gate.lastFetched ≤ o.now ∧ now ≤ o.now := by
  simp only [tryGet, hprem, Bool.false_eq_true, if_false] at h
  split at h
  · cases h
    exact ⟨rfl, le_refl _, le_refl _, hnow, le_refl _⟩
  · cases hrl : rlLoop oracle amount fuel k
        ⟨f.proxies, if g.poisoned = true then now else g.lastFetched, now⟩ with
    | none => rw [hrl] at h; cases h
    | some out =>
      rw [hrl] at h
      dsimp only at h
      have hle : g.lastFetched ≤ (if g.poisoned = true then now else g.lastFetched) := by
        split <;> omega
      have hln : (if g.poisoned = true then now else g.lastFetched) ≤ now := by
        split <;> omega
      obtain ⟨c1, c2, c3, c4, c5⟩ := rlLoop_chain oracle amount fuel k _ out hln hrl
      dsimp only at c1 c2 c3 c4 c5
      have hfold : foldLast g.lastFetched out.events ≤ out.s.last := by
        calc foldLast g.lastFetched out.events
            ≤ foldLast (if g.poisoned = true then now else g.lastFetched) out.events :=
              foldLast_mono _ _ _ hle
          _ = out.s.last := c2
      cases hres : out.res with
      | error e =>
        rw [hres] at h
        dsimp only at h
        cases h
        exact ⟨chainOK_mono _ _ _ hle c1, hfold,
          show g.lastFetched ≤ out.s.last by omega,
          show out.s.last ≤ out.s.now from c4,
          show now ≤ out.s.now by omega⟩
      | ok u =>
        rw [hres] at h
        dsimp only at h
        cases h
        exact ⟨chainOK_mono _ _ _ hle c1, hfold,
          show g.lastFetched ≤ out.s.last by omega,
          show out.s.last ≤ out.s.now from c4,
          show now ≤ out.s.now by omega⟩

theorem tryGet_total {α : Type u} (oracle : Nat → Except ApiError (List α))
    (amount : Nat) (f : Fetcher α) (g : Gate) (now : Int) (k : Nat)
    (hor : ∀ i ps, oracle i = Except.ok ps → ps ≠ []) :
    tryGet oracle (amount + 1) amount f g now k ≠ none := by
  simp only [tryGet]
  split
  · simp
  · split
    · cases hpl : premiumLoop oracle amount now (amount + 1) k f.proxies with
      | none =>
        exact absurd hpl (premiumLoop_total oracle amount now hor (amount + 1) k f.proxies (by omega))
      | some out =>
        cases hres : out.res with
        | error e => simp [hres]
        | ok u => simp [hres]
    · cases hrl : rlLoop oracle amount (amount + 1) k
          ⟨f.proxies, if g.poisoned = true then now else g.lastFetched, now⟩ with
      | none =>
        exact absurd hrl (rlLoop_total oracle amount hor (amount + 1) k _ (by dsimp only; omega))
      | some out =>
        cases hres : out.res with
        | error e => simp [hres]
        | ok u => simp [hres]

theorem runJobs_chain {α : Type u} (oracle : Nat → Except ApiError (List α)) (fuel : Nat) :
    ∀ (jobs : List (Job α)) (g : Gate) (now : Int) (k : Nat) (r : RunResult α),
      g.lastFetched ≤ now →
      runJobs oracle fuel jobs g now k = some r →
      chainOK g.lastFetched r.events = true ∧
      foldLast g.lastFetched r.events ≤ r.gate.lastFetched ∧
      g.lastFetched ≤ r.gate.lastFetched ∧ r.gate.lastFetched ≤ r.now := by
  intro jobs
  induction jobs with
  | nil =>
    intro g now k r hle h
    simp only [runJobs] at h
    cases h
    exact ⟨rfl, le_refl _, le_refl _, hle⟩
  | cons j js ih =>
    intro g now k r hle h
    simp only [runJobs] at h
    cases htg : tryGet oracle fuel j.amount ⟨j.buf, ⟨false⟩⟩ g (now + (j.delay : Int)) k with
    | none => rw [htg] at h; cases h
    | some o =>
      rw [htg] at h
      dsimp only at h
      have hle2 : g.lastFetched ≤ now + (j.delay : Int) := by omega
      obtain ⟨c1, c2, c3, c4, c5⟩ := tryGet_chain oracle fuel j.amount _ g _ k o hle2 rfl htg
      cases hrec : runJobs oracle fuel js o.gate o.now o.k with
      | none => rw [hrec] at h; cases h
      | some r1 =>
        rw [hrec] at h
        dsimp only at h
        cases h
        obtain ⟨d1, d2, d3, d4⟩ := ih o.gate o.now o.k r1 c4 hrec
        refine ⟨?_, ?_, show g.lastFetched ≤ r1.gate.lastFetched by omega,
          show r1.gate.lastFetched ≤ r1.now from d4⟩
        · rw [chainOK_append]
          simp only [Bool.and_eq_true]
          exact ⟨c1, chainOK_mono _ _ _ c2 d1⟩
        · rw [foldLast_append]
          calc foldLast (foldLast g.lastFetched o.events) r1.events
              ≤ foldLast o.gate.lastFetched r1.events := foldLast_mono _ _ _ c2
            _ ≤ r1.gate.lastFetched := d2

theorem runCalls_conserve {α : Type u} (oracle : Nat → Except ApiError (List α)) (fuel : Nat) :
    ∀ (amounts : List Nat) (st0 st : SeqResult α),
      runCalls oracle fuel amounts st0 = some st →
      (st.rets.flatten : Multiset α) + (st.fetcher.proxies : Multiset α) + (st0.fetched : Multiset α)
        = (st0.rets.flatten : Multiset α) + (st0.fetcher.proxies : Multiset α) + (st.fetched : Multiset α) := by
  intro amounts
  induction amounts with
  | nil =>
    intro st0 st h
    simp only [runCalls] at h
    cases h
    rfl
  | cons a rest ih =>
    intro st0 st h
    simp only [runCalls] at h
    cases htg : tryGet oracle fuel a st0.fetcher st0.gate st0.now st0.k with
    | none => rw [htg] at h; cases h
    | some o =>
      rw [htg] at h
      dsimp only at h
      cases hres : o.result with
      | error e => rw [hres] at h; cases h
      | ok ps =>
        rw [hres] at h
        dsimp only at h
        have key : (o.buf : Multiset α) + (ps : Multiset α)
            = (st0.fetcher.proxies : Multiset α) + (o.fetched : Multiset α) := by
          have hsh := (tryGet_shape oracle fuel a st0.fetcher st0.gate st0.now st0.k o htg).1
          rw [hres] at hsh
          simp only [resultList] at hsh
          rw [Multiset.coe_add, Multiset.coe_add, hsh]
        have ih2 := ih _ st h
        dsimp only at ih2
        rw [List.flatten_append, List.flatten_cons, List.flatten_nil, List.append_nil,
          ← Multiset.coe_add, ← Multiset.coe_add] at ih2
        apply add_right_cancel (b := (o.fetched : Multiset α))
        calc (st.rets.flatten : Multiset α) + (st.fetcher.proxies : Multiset α)
              + (st0.fetched : Multiset α) + (o.fetched : Multiset α)
            = (st.rets.flatten : Multiset α) + (st.fetcher.proxies : Multiset α)
              + ((st0.fetched : Multiset α) + (o.fetched : Multiset α)) := by abel
          _ = (st0.rets.flatten : Multiset α) + (ps : Multiset α) + (o.buf : Multiset α)
              + (st.fetched : Multiset α) := ih2
          _ = (st0.rets.flatten : Multiset α) + ((o.buf : Multiset α) + (ps : Multiset α))
              + (st.fetched : Multiset α) := by abel
          _ = (st0.rets.flatten : Multiset α)
              + ((st0.fetcher.proxies : Multiset α) + (o.fetched : Multiset α))
              + (st.fetched : Multiset α) := by rw [key]
          _ = (st0.rets.flatten : Multiset α) + (st0.fetcher.proxies : Multiset α)
              + (st.fetched : Multiset α) + (o.fetched : Multiset α) := by abel

theorem tryGet_empty_none {α : Type u} (oracle : Nat → Except ApiError (List α))
    (hor : ∀ i, oracle i = Except.ok ([] : List α)) (fuel amount : Nat) (f : Fetcher α)
    (g : Gate) (now : Int) (k : Nat) (hlen : f.proxies.length < amount)
    (hprem : f.opts.premium = false) :
    tryGet oracle fuel amount f g now k = none := by
  simp only [tryGet, hprem, Bool.false_eq_true, if_false]
  rw [if_neg (by omega)]
  rw [rlLoop_empty_diverges oracle amount hor fuel k _ (by dsimp only; omega)]

theorem rlLoop_first_event {α : Type u} (oracle : Nat → Except ApiError (List α))
    (amount fuel k : Nat) (s : RLState α) (out : LoopOut α)
    (hlen : s.buf.length < amount) (h : rlLoop oracle amount fuel k s = some out) :
    ∃ b rest, out.events = (s.now + sleepTime s.last s.now, b) :: rest := by
  cases fuel with
  | zero => simp [rlLoop] at h
  | succ n =>
    simp only [rlLoop] at h
    rw [if_neg (by omega)] at h
    cases horc : oracle k with
    | error e =>
      rw [horc] at h
      dsimp only at h
      cases h
      exact ⟨false, [], rfl⟩
    | ok ps =>
      rw [horc] at h
      dsimp only at h
      cases hrec : rlLoop oracle amount n (k + 1)
          ⟨s.buf ++ ps, s.now + sleepTime s.last s.now, s.now + sleepTime s.last s.now⟩ with
      | none => rw [hrec] at h; cases h
      | some out1 =>
        rw [hrec] at h
        dsimp only at h
        cases h
        exact ⟨true, out1.events, rfl⟩

/-- C3: for every `amount` with `amount ≤ buffer.len()` at call time,
`try_get(amount)` returns `Ok` with exactly `amount` records (the buffer's
last `amount`, via `split_off`), shrinks the buffer by exactly `amount`,
performs no remote-boundary call (no events), never acquires the shared
gate (`locked = false`, gate unchanged), and never suspends the calling
thread (the clock is unchanged). -/
theorem tryGet_fast_path {α : Type u} (oracle : Nat → Except ApiError (List α))
    (fuel amount : Nat) (f : Fetcher α) (g : Gate) (now : Int) (k : Nat)
    (hlen : amount ≤ f.proxies.length) :
    tryGet oracle fuel amount f g now k =
      some ⟨.ok (f.proxies.drop (f.proxies.length - amount)),
            f.proxies.take (f.proxies.length - amount), g, now, k, [], [], false⟩ ∧
    (f.proxies.drop (f.proxies.length - amount)).length = amount ∧
    (f.proxies.take (f.proxies.length - amount)).length = f.proxies.length - amount := by
  refine ⟨?_, ?_, ?_⟩
  · simp only [tryGet, if_pos hlen]
  · simp only [List.length_drop]
    omega
  · simp only [List.length_take]
    omega

/-- Witness for C3 at a concrete input. -/
theorem tryGet_fast_path_witness :
    tryGet alwaysOk3 5 2 (⟨[10, 20, 30], ⟨false⟩⟩ : Fetcher Nat) ⟨-1100, false⟩ 0 0 =
      some ⟨.ok ([10, 20, 30].drop 1), [10, 20, 30].take 1, ⟨-1100, false⟩, 0, 0, [], [], false⟩ ∧
    ([10, 20, 30].drop 1).length = 2 ∧ ([10, 20, 30].take 1).length = 1 :=
  tryGet_fast_path alwaysOk3 5 2 ⟨[10, 20, 30], ⟨false⟩⟩ ⟨-1100, false⟩ 0 0 (by simp)

/-- C8: for every fetcher state, `try_get(0)` returns `Ok` with an empty
sequence, leaves the buffer exactly as it was, performs no remote call and
never touches the shared gate (since `0 ≤ len` always holds, `split_off(len)`
on the fast path returns the empty tail). -/
theorem tryGet_zero {α : Type u} (oracle : Nat → Except ApiError (List α))
    (fuel : Nat) (f : Fetcher α) (g : Gate) (now : Int) (k : Nat) :
    tryGet oracle fuel 0 f g now k = some ⟨.ok [], f.proxies, g, now, k, [], [], false⟩ := by
  simp [tryGet, List.drop_length, List.take_length]

/-- C2: every `try_get(amount)` call that completes either returns `Ok` with
exactly `amount` records, or returns the `FetchError` produced by the last
remote invocation it made; on the error path the buffer holds everything it
held at entry plus all records of the same call's earlier successful
iterations, and a later `drain` returns exactly that. -/
theorem tryGet_exact_or_error {α : Type u} (oracle : Nat → Except ApiError (List α))
    (fuel amount : Nat) (f : Fetcher α) (g : Gate) (now : Int) (k : Nat) (o : Outcome α)
    (h : tryGet oracle fuel amount f g now k = some o) :
    (∃ ps, o.result = .ok ps ∧ ps.length = amount) ∨
    (∃ e, o.result = .error e ∧ oracle (o.k - 1) = Except.error e ∧
       o.buf = f.proxies ++ o.fetched ∧
       Fetcher.drain ⟨o.buf, f.opts⟩ = f.proxies ++ o.fetched) := by
  obtain ⟨h1, h2, h3⟩ := tryGet_shape oracle fuel amount f g now k o h
  cases hres : o.result with
  | ok ps =>
    left
    obtain ⟨hp, hb, hl⟩ := h2 ps hres
    refine ⟨ps, rfl, ?_⟩
    rw [hp]
    simp only [List.length_drop]
    omega
  | error e =>
    right
    obtain ⟨hb, ho⟩ := h3 e hres
    exact ⟨e, rfl, ho, hb, by simp [Fetcher.drain, hb]⟩

/-- Witness for C2 at a concrete input (the error path: first invocation
fails, the buffer at entry is preserved). -/
theorem tryGet_exact_or_error_witness :
    (∃ ps, oC2.result = .ok ps ∧ ps.length = 2) ∨
    (∃ e, oC2.result = .error e ∧ failThenOk (oC2.k - 1) = Except.error e ∧
       oC2.buf = [1] ++ oC2.fetched ∧
       Fetcher.drain ⟨oC2.buf, ⟨false⟩⟩ = [1] ++ oC2.fetched) :=
  tryGet_exact_or_error failThenOk 3 2 ⟨[1], ⟨false⟩⟩ ⟨-1100, false⟩ 0 0 oC2 (by rfl)

/-- C10: the buffer only changes by appending fetched records at the tail or
removing a suffix: a successful `try_get(amount)` returns exactly the last
`amount` records of the grown buffer in stored order, and what remains is
the unchanged prefix; no reordering ever happens. -/
theorem tryGet_buffer_discipline {α : Type u} (oracle : Nat → Except ApiError (List α))
    (fuel amount : Nat) (f : Fetcher α) (g : Gate) (now : Int) (k : Nat) (o : Outcome α)
    (ps : List α) (h : tryGet oracle fuel amount f g now k = some o)
    (hres : o.result = .ok ps) :
    o.buf ++ ps = f.proxies ++ o.fetched ∧
    ps = (f.proxies ++ o.fetched).drop ((f.proxies ++ o.fetched).length - amount) ∧
    o.buf = (f.proxies ++ o.fetched).take ((f.proxies ++ o.fetched).length - amount) := by
  obtain ⟨h1, h2, h3⟩ := tryGet_shape oracle fuel amount f g now k o h
  obtain ⟨hp, hb, hl⟩ := h2 ps hres
  refine ⟨?_, hp, hb⟩
  rw [hres] at h1
  simpa [resultList] using h1

/-- Witness for C10 at a concrete input (one remote batch is appended at the
tail; the returned slice is the whole grown buffer since `amount` equals its
length). -/
theorem tryGet_buffer_discipline_witness :
    ([] : List Nat) ++ [1, 3] = [1] ++ [3] ∧
    ([1, 3] : List Nat) = ([1] ++ [3]).drop (([1] ++ [3] : List Nat).length - 2) ∧
    ([] : List Nat) = ([1] ++ [3]).take (([1] ++ [3] : List Nat).length - 2) :=
  tryGet_buffer_discipline alwaysOk3 3 2 ⟨[1], ⟨false⟩⟩ ⟨-1100, false⟩ 0 0
    ⟨.ok [1, 3], [], ⟨0, false⟩, 0, 1, [(0, true)], [3], true⟩ [1, 3] (by rfl) rfl

/-- C5 counterexample: the boundary contract allows a successful invocation
to return zero records; against such a boundary (`alwaysEmpty`, which always
returns `Ok []`), a rate-limited `try_get(1)` on an empty buffer never
completes — the growth loop makes no progress, for any number of
iterations — so the claim that every `try_get` invocation terminates under
the boundary contract is false. -/
theorem tryGet_termination_claim_false :
    ¬ ∃ fuel : Nat, (tryGet alwaysEmpty fuel 1 (⟨[], ⟨false⟩⟩ : Fetcher Nat)
        (Session.default 0).gate 0 0).isSome = true := by
  rintro ⟨fuel, hf⟩
  rw [tryGet_empty_none alwaysEmpty (fun i => rfl) fuel 1 _ _ 0 0 (by simp) rfl] at hf
  simp at hf

/-- C5 amended: every `try_get(amount)` invocation terminates (with `Ok`
carrying exactly `amount` records or with the boundary's `FetchError`)
provided every successful boundary response is nonempty; `amount + 1` loop
iterations always suffice. -/
theorem tryGet_terminates_on_nonempty_batches {α : Type u}
    (oracle : Nat → Except ApiError (List α)) (amount : Nat) (f : Fetcher α) (g : Gate)
    (now : Int) (k : Nat) (hor : ∀ i ps, oracle i = Except.ok ps → ps ≠ []) :
    tryGet oracle (amount + 1) amount f g now k ≠ none :=
  tryGet_total oracle amount f g now k hor

/-- Witness for the amended C5 at a concrete input. -/
theorem tryGet_terminates_on_nonempty_batches_witness :
    tryGet alwaysOk3 3 2 (⟨[], ⟨false⟩⟩ : Fetcher Nat) (Session.default 0).gate 0 0 ≠ none :=
  tryGet_terminates_on_nonempty_batches alwaysOk3 2 ⟨[], ⟨false⟩⟩ (Session.default 0).gate 0 0
    (fun i ps h => by
      simp only [alwaysOk3, Except.ok.injEq] at h
      simp [← h])

/-- C4: acquiring the shared gate never surfaces an error.  If the mutex is
found poisoned, the acquirer resets the stored timestamp to the current
instant and proceeds: a rate-limited slow-path call on a poisoned gate
behaves exactly as on a gate stamped "now" (and still poisoned, since
`std::sync::Mutex` keeps the flag), and such a call still completes whenever
the remote boundary's successful batches are nonempty. -/
theorem poisoned_gate_recovers {α : Type u} (oracle : Nat → Except ApiError (List α))
    (fuel amount : Nat) (f : Fetcher α) (g : Gate) (now : Int) (k : Nat)
    (hp : g.poisoned = true) (hprem : f.opts.premium = false)
    (hlen : f.proxies.length < amount)
    (hor : ∀ i ps, oracle i = Except.ok ps → ps ≠ []) :
    tryGet oracle fuel amount f g now k = tryGet oracle fuel amount f ⟨now, true⟩ now k ∧
    tryGet oracle (amount + 1) amount f g now k ≠ none :=
  ⟨by
    simp only [tryGet, hprem, Bool.false_eq_true, if_false, hp, eq_self_iff_true, if_true]
    rw [if_neg (show ¬ amount ≤ f.proxies.length by omega),
      if_neg (show ¬ amount ≤ f.proxies.length by omega)],
   tryGet_total oracle amount f g now k hor⟩

/-- Witness for C4 at a concrete input. -/
theorem poisoned_gate_recovers_witness :
    tryGet alwaysOk3 3 1 (⟨[], ⟨false⟩⟩ : Fetcher Nat) ⟨-5, true⟩ 0 0 =
      tryGet alwaysOk3 3 1 (⟨[], ⟨false⟩⟩ : Fetcher Nat) ⟨0, true⟩ 0 0 ∧
    tryGet alwaysOk3 2 1 (⟨[], ⟨false⟩⟩ : Fetcher Nat) ⟨-5, true⟩ 0 0 ≠ none :=
  poisoned_gate_recovers alwaysOk3 3 1 ⟨[], ⟨false⟩⟩ ⟨-5, true⟩ 0 0 rfl rfl (by simp)
    (fun i ps h => by
      simp only [alwaysOk3, Except.ok.injEq] at h
      simp [← h])

/-- C6: a premium (unlimited-tier) `try_get` never reads or writes the
shared gate and never suspends the calling thread: the whole observable
outcome apart from the returned gate field is the same for any two gate
states, the gate comes back exactly as it went in, the clock is unchanged,
and the call never acquires the lock. -/
theorem premium_gate_independent {α : Type u} (oracle : Nat → Except ApiError (List α))
    (fuel amount : Nat) (f : Fetcher α) (g g2 : Gate) (now : Int) (k : Nat)
    (hprem : f.opts.premium = true) :
    Option.map Outcome.core (tryGet oracle fuel amount f g now k)
      = Option.map Outcome.core (tryGet oracle fuel amount f g2 now k) ∧
    (∀ o, tryGet oracle fuel amount f g now k = some o →
       o.gate = g ∧ o.now = now ∧ o.locked = false) := by
  constructor
  · simp only [tryGet, hprem, eq_self_iff_true, if_true]
    split
    · rfl
    · cases hpl : premiumLoop oracle amount now fuel k f.proxies with
      | none => rfl
      | some out =>
        dsimp only
        cases hres : out.res with
        | error e => rfl
        | ok u => rfl
  · intro o ho
    simp only [tryGet, hprem, eq_self_iff_true, if_true] at ho
    split at ho
    · cases ho
      exact ⟨rfl, rfl, rfl⟩
    · cases hpl : premiumLoop oracle amount now fuel k f.proxies with
      | none => rw [hpl] at ho; cases ho
      | some out =>
        rw [hpl] at ho
        dsimp only at ho
        cases hres : out.res with
        | error e =>
          rw [hres] at ho
          dsimp only at ho
          cases ho
          exact ⟨rfl, rfl, rfl⟩
        | ok u =>
          rw [hres] at ho
          dsimp only at ho
          cases ho
          exact ⟨rfl, rfl, rfl⟩

/-- Witness for C6 at a concrete input (two different gates, one of them
poisoned). -/
theorem premium_gate_independent_witness :
    Option.map Outcome.core (tryGet alwaysOk3 3 2 (⟨[], ⟨true⟩⟩ : Fetcher Nat) ⟨-5, true⟩ 0 0)
      = Option.map Outcome.core (tryGet alwaysOk3 3 2 (⟨[], ⟨true⟩⟩ : Fetcher Nat) ⟨77, false⟩ 0 0) ∧
    (∀ o, tryGet alwaysOk3 3 2 (⟨[], ⟨true⟩⟩ : Fetcher Nat) ⟨-5, true⟩ 0 0 = some o →
       o.gate = ⟨-5, true⟩ ∧ o.now = 0 ∧ o.locked = false) :=
  premium_gate_independent alwaysOk3 3 2 ⟨[], ⟨true⟩⟩ ⟨-5, true⟩ ⟨77, false⟩ 0 0 rfl

/-- C9: a fresh `Session` stores a gate timestamp exactly one minimum
interval (`DELAY`) in the past, so at any instant from creation onward the
delay computation against it is a zero-length sleep, and a rate-limited
slow-path `try_get` run through the fresh gate performs its first remote
invocation at the very instant the call enters the loop — no thread sleep
precedes it. -/
theorem session_default_first_fetch {α : Type u} (oracle : Nat → Except ApiError (List α))
    (fuel amount : Nat) (f : Fetcher α) (t0 tc : Int) (k : Nat)
    (hprem : f.opts.premium = false) (hlen : f.proxies.length < amount) (htc : t0 ≤ tc) :
    (Session.default t0).gate.lastFetched = t0 - DELAY ∧
    sleepTime (Session.default t0).gate.lastFetched tc = 0 ∧
    (∀ o, tryGet oracle fuel amount f (Session.default t0).gate tc k = some o →
       ∃ b rest, o.events = (tc, b) :: rest) := by
  have hD : DELAY = 1100 := rfl
  have hds : durationSince tc (t0 - DELAY) = tc - (t0 - DELAY) := by
    simp only [durationSince]
    split <;> omega
  have hsleep : sleepTime (t0 - DELAY) tc = 0 := by
    simp only [sleepTime, hds]
    split <;> omega
  refine ⟨rfl, hsleep, ?_⟩
  intro o ho
  simp only [tryGet, hprem, Bool.false_eq_true, if_false, Session.default] at ho
  rw [if_neg (by omega)] at ho
  cases hrl : rlLoop oracle amount fuel k ⟨f.proxies, t0 - DELAY, tc⟩ with
  | none => rw [hrl] at ho; cases ho
  | some out =>
    rw [hrl] at ho
    dsimp only at ho
    obtain ⟨b, rest, hev⟩ := rlLoop_first_event oracle amount fuel k _ out (by dsimp only; omega) hrl
    dsimp only at hev
    rw [hsleep, add_zero] at hev
    cases hres : out.res with
    | error e =>
      rw [hres] at ho
      dsimp only at ho
      cases ho
      exact ⟨b, rest, hev⟩
    | ok u =>
      rw [hres] at ho
      dsimp only at ho
      cases ho
      exact ⟨b, rest, hev⟩

/-- Witness for C9 at a concrete input (session created at 50, first call
entering the loop at 60). -/
theorem session_default_first_fetch_witness :
    (Session.default 50).gate.lastFetched = 50 - DELAY ∧
    sleepTime (Session.default 50).gate.lastFetched 60 = 0 ∧
    (∀ o, tryGet alwaysOk3 2 1 (⟨[], ⟨false⟩⟩ : Fetcher Nat) (Session.default 50).gate 60 0 = some o →
       ∃ b rest, o.events = (60, b) :: rest) :=
  session_default_first_fetch alwaysOk3 2 1 ⟨[], ⟨false⟩⟩ 50 60 0 rfl (by simp) (by omega)

/-- C7: for a fresh fetcher and any finite sequence of sequential successful
`try_get` calls, the concatenation of all returned batches plus the final
`drain()` equals, as a multiset, exactly the records ever returned by the
remote boundary to that fetcher; `drain` itself is a pure projection of the
buffer with no remote interaction. -/
theorem conservation_returns_plus_drain {α : Type u} (oracle : Nat → Except ApiError (List α))
    (fuel : Nat) (amounts : List Nat) (opts : Opts) (g : Gate) (now : Int) (k : Nat)
    (st : SeqResult α)
    (h : runCalls oracle fuel amounts ⟨⟨[], opts⟩, g, now, k, [], []⟩ = some st) :
    ((st.rets.flatten ++ Fetcher.drain st.fetcher : List α) : Multiset α)
      = (st.fetched : Multiset α) := by
  have hc := runCalls_conserve oracle fuel amounts _ st h
  simp only [Fetcher.drain]
  rw [← Multiset.coe_add]
  simpa using hc

/-- Witness for C7 at a concrete input: two calls against a boundary that
hands out one record per invocation. -/
theorem conservation_returns_plus_drain_witness :
    ((([[3], [3, 3]].flatten ++ Fetcher.drain (⟨[], ⟨false⟩⟩ : Fetcher Nat)) : List Nat) : Multiset Nat)
      = (([3, 3, 3] : List Nat) : Multiset Nat) := by
  have h := conservation_returns_plus_drain alwaysOk3 4 [1, 2] ⟨false⟩ ⟨-1100, false⟩ 0 0
    ⟨⟨[], ⟨false⟩⟩, ⟨2200, false⟩, 2200, 3, [[3], [3, 3]], [3, 3, 3]⟩ (by rfl)
  simpa using h

/-- C1 counterexample: the gate timestamp is only advanced after a
*successful* fetch (the `?` on fetcher.rs line 66 returns before the update
on line 70), so a remote invocation that follows a failed invocation can
happen arbitrarily soon after it.  Concretely: two rate-limited fetchers of
a fresh session, the first call's only invocation fails at time 0, the
second call's invocation also happens at time 0 — the separation is 0,
not `DELAY`. -/
theorem interval_claim_fails_after_fetch_error :
    runSep (runJobs failThenOk 3 [(⟨[], 1, 0⟩ : Job Nat), ⟨[], 1, 0⟩]
      (Session.default 0).gate 0 0) = some false := by
  rfl

/-- C1 amended: among rate-limited fetchers sharing a session, for every
serialized order of their `try_get` growth phases (every thread
interleaving), every pair of consecutive remote invocations whose earlier
member returned *successfully* is separated by at least `DELAY`; after a
failed invocation the gate is not advanced, so only the distance to the
last successful invocation is guaranteed. -/
theorem min_interval_after_success {α : Type u} (oracle : Nat → Except ApiError (List α))
    (fuel : Nat) (jobs : List (Job α)) (t0 : Int) (k : Nat) (r : RunResult α)
    (h : runJobs oracle fuel jobs (Session.default t0).gate t0 k = some r) :
    sepAfterSuccess r.events = true := by
  have hD : DELAY = 1100 := rfl
  have hle : (Session.default t0).gate.lastFetched ≤ t0 := by
    dsimp only [Session.default]
    omega
  exact chainOK_sepAfterSuccess _ _ (runJobs_chain oracle fuel jobs _ t0 k r hle h).1

/-- Witness for the amended C1 at a concrete input. -/
theorem min_interval_after_success_witness :
    sepAfterSuccess (RunResult.events (α := Nat) ⟨⟨0, false⟩, 0, 1, [(0, true)]⟩) = true :=
  min_interval_after_success alwaysOk3 2 [⟨[], 1, 0⟩] 0 0 ⟨⟨0, false⟩, 0, 1, [(0, true)]⟩ (by rfl)
